import Mathlib

/-!
Shallow embedding of the `one` repository pieces that the specification
talks about:

* `one/libraries/admin/menu/items.py` — `MenuItem`, `AppList`, `ModelList`
  (menu construction, permission/pattern filtering, sorting, selection).
* `one/masterdata/uom/management/commands/initial_uom.py` — the two-pass
  UOM seeding command.

External collaborators that the source calls but whose code is not part of
the repository snapshot (the `AppListElementMixin` helpers, the
`MENU_EXTRA_DETAILS` table, the Django app registry / admin URL builder,
and the Django ORM operations `update_or_create`, `get`, `save`) are
modelled explicitly; each such definition carries a doc comment saying so.
-/

namespace One

/-! ### Menu data model (`items.py`) -/

/-- A registered Django model as the menu code sees it: its owning
application's label (`model._meta.app_label`), its class name, and its
plural display name (`model._meta.verbose_name_plural`). -/
structure Model where
  appLabel : String
  modelName : String
  verboseNamePlural : String
deriving DecidableEq, Repr

/-- Modelled from the spec: the dotted name `app.Model` that inclusion and
exclusion patterns are matched against. -/
def Model.dottedName (m : Model) : String :=
  m.appLabel ++ "." ++ m.modelName

/-- The permission bits the menu code reads from the per-model perms dict:
`perms["change"]` and `perms.get("view", False)`. -/
structure Perms where
  change : Bool
  view : Bool
deriving DecidableEq, Repr

/-- A `MenuItem` instance, restricted to the attributes the claims are
about: `title`, `url`, `fas_icon` and the list of `children`.  The
remaining attributes of the Python class (`css_classes`, `accesskey`,
`description`, `enabled`, `template`) are presentation-only data that no
method of the source reads. -/
inductive MenuItem : Type where
  | mk (title : String) (url : String) (fasIcon : Option String)
       (children : List MenuItem)

def MenuItem.title : MenuItem → String
  | .mk t _ _ _ => t

def MenuItem.url : MenuItem → String
  | .mk _ u _ _ => u

def MenuItem.fasIcon : MenuItem → Option String
  | .mk _ _ i _ => i

def MenuItem.children : MenuItem → List MenuItem
  | .mk _ _ _ cs => cs

mutual

/-- `MenuItem.is_selected`: the item is selected when its `url` equals the
current request path, or when the list comprehension
`[c for c in self.children if c.is_selected(request)]` is nonempty. -/
def MenuItem.isSelected (currentUrl : String) : MenuItem → Bool
  | .mk _ url _ children =>
    url == currentUrl
      || decide (0 < (MenuItem.selectedChildren currentUrl children).length)

/-- The list comprehension `[c for c in children if c.is_selected(request)]`. -/
def MenuItem.selectedChildren (currentUrl : String) : List MenuItem → List MenuItem
  | [] => []
  | c :: cs =>
    if MenuItem.isSelected currentUrl c
    then c :: MenuItem.selectedChildren currentUrl cs
    else MenuItem.selectedChildren currentUrl cs

end

/-- `MenuItem.is_empty`: always `False` on the base class. -/
def MenuItem.isEmpty (_ : MenuItem) : Bool :=
  false

/-- The mutable state of an `AppList` instance that the claims are about:
the `models` inclusion patterns, the `exclude` patterns, and `children`. -/
structure AppListState where
  models : List String
  exclude : List String
  children : List MenuItem

/-- The mutable state of a `ModelList` instance. -/
structure ModelListState where
  models : List String
  exclude : List String
  children : List MenuItem

/-! ### External registry, permissions and URL builders

`AppList`/`ModelList` mix in `AppListElementMixin` (from
`one/libraries/admin/utils.py`, not part of the snapshot) and read
`MENU_EXTRA_DETAILS` (from `one/libraries/admin/menu/constants.py`, not
part of the snapshot); they also query the Django app registry and admin
URL reverser.  `Env` bundles these externals. -/

/-- Modelled from the spec: the external registry, the requesting
principal's permission check, the app registry's display names, the admin
URL builder, and the `MENU_EXTRA_DETAILS` override table (an application
may override the displayed title and/or the icon). -/
structure Env where
  registry : List Model
  perms : Model → Perms
  appVerboseName : String → String
  appListUrl : Model → String
  changeUrl : Model → String
  extraTitle : String → Option String
  extraIcon : String → Option String

/-- Modelled from the spec: glob matching of a dotted model name against a
pattern, where a star matches any (possibly empty) substring and every
other character matches itself — the patterns of the source are of the
shape seen in the docstrings, e.g. a literal prefix followed by a star. -/
def globMatch : List Char → List Char → Bool
  | [], [] => true
  | [], _ :: _ => false
  | '*' :: ps, [] => globMatch ps []
  | '*' :: ps, c :: s => globMatch ps (c :: s) || globMatch ('*' :: ps) s
  | _ :: _, [] => false
  | p :: ps, c :: s => p == c && globMatch ps s
termination_by p s => (p.length, s.length)

def globMatchStr (pattern s : String) : Bool :=
  globMatch pattern.data s.data

/-- Modelled from the spec: a model passes the pattern filter iff its
dotted name matches at least one inclusion pattern (or the inclusion list
is empty, meaning all models), and matches no exclusion pattern. -/
def patternVisible (models exclude : List String) (dotted : String) : Bool :=
  (models.isEmpty || models.any (fun p => globMatchStr p dotted))
    && !(exclude.any (fun p => globMatchStr p dotted))

/-- Modelled from the spec: `AppListElementMixin._visible_models(request)`
returns, in registry order, every registered model passing the
include/exclude pattern filter, paired with the requesting principal's
permissions on it.  (The view-or-change permission test itself is applied
by the callers in `items.py` and is embedded there.) -/
def visibleModels (env : Env) (models exclude : List String) :
    List (Model × Perms) :=
  (env.registry.filter (fun m => patternVisible models exclude m.dottedName)).map
    (fun m => (m, env.perms m))

/-! ### `AppList.init_with_context` -/

/-- One element of an `apps[app_label]["models"]` list: the dict
`{app_label, title, url}` built for each visible model. -/
structure ModelDict where
  app_label : String
  title : String
  url : String
deriving DecidableEq, Repr

/-- One `apps[app_label]` entry: the dict with the application's label,
display title, admin app-list url, and accumulated model dicts. -/
structure AppDict where
  app_label : String
  title : String
  url : String
  models : List ModelDict
deriving DecidableEq, Repr

def modelDict (env : Env) (m : Model) : ModelDict :=
  { app_label := m.appLabel, title := m.verboseNamePlural, url := env.changeUrl m }

/-- One iteration of the grouping loop of `AppList.init_with_context`:
create the `apps[app_label]` entry if absent, then append the model dict
to that entry's `models` list. -/
def addModel (env : Env) (apps : List AppDict) (m : Model) : List AppDict :=
  let apps' :=
    if apps.any (fun a => a.app_label == m.appLabel) then apps
    else
      apps ++ [{ app_label := m.appLabel, title := env.appVerboseName m.appLabel,
                 url := env.appListUrl m, models := [] }]
  apps'.map (fun a =>
    if a.app_label == m.appLabel
    then { a with models := a.models ++ [modelDict env m] }
    else a)

/-- The grouping loop of `AppList.init_with_context`: iterate over the
visible `(model, perms)` pairs, skip those with neither change nor view
permission, and group the rest by `app_label`.  The Python dict keyed by
`app_label` is embedded as a list of `AppDict` in first-seen order; since
the emission loop iterates over `sorted(apps.keys())`, the dict's own
order is irrelevant. -/
def buildApps (env : Env) (items : List (Model × Perms)) : List AppDict :=
  items.foldl
    (fun apps mp => if mp.2.change || mp.2.view then addModel env apps mp.1 else apps)
    []

def appDictLe (a b : AppDict) : Prop :=
  a.app_label ≤ b.app_label

def modelDictLe (a b : ModelDict) : Prop :=
  a.title ≤ b.title

instance : DecidableRel appDictLe :=
  fun a b => inferInstanceAs (Decidable (a.app_label ≤ b.app_label))

instance : DecidableRel modelDictLe :=
  fun a b => inferInstanceAs (Decidable (a.title ≤ b.title))

instance : IsTotal AppDict appDictLe :=
  ⟨fun a b => le_total a.app_label b.app_label⟩

instance : IsTrans AppDict appDictLe :=
  ⟨fun _ _ _ h h₂ => le_trans h h₂⟩

instance : IsTotal ModelDict modelDictLe :=
  ⟨fun a b => le_total a.title b.title⟩

instance : IsTrans ModelDict modelDictLe :=
  ⟨fun _ _ _ h h₂ => le_trans h h₂⟩

/-- The app dicts in the order the emission loop visits them:
`for app in sorted(apps.keys())`.  As the labels in the dict are distinct,
iterating its keys in sorted order is the same as sorting the entry list
by label (stably, which matches Python's sort). -/
def appListApps (env : Env) (models exclude : List String) : List AppDict :=
  List.insertionSort appDictLe (buildApps env (visibleModels env models exclude))

/-- `apps[app]["models"].sort(key=lambda x: x["title"])` — a stable sort by
title, as Python's `list.sort` is stable. -/
def sortModels (models : List ModelDict) : List ModelDict :=
  List.insertionSort modelDictLe models

/-- The per-application `MenuItem` the emission loop appends: title and
icon possibly overridden by `MENU_EXTRA_DETAILS` (default icon
`"fa-cube"`), url from the app dict, and one child per model dict in
sorted order.  `MenuItem(**model_dict)` ignores the `app_label` key, since
`MenuItem` has no such class attribute. -/
def mkGroupItem (env : Env) (a : AppDict) : MenuItem :=
  MenuItem.mk
    ((env.extraTitle a.app_label).getD a.title)
    a.url
    (some ((env.extraIcon a.app_label).getD "fa-cube"))
    ((sortModels a.models).map (fun md => MenuItem.mk md.title md.url none []))

/-- The full list of children that one call of
`AppList.init_with_context` appends. -/
def appListNewChildren (env : Env) (models exclude : List String) : List MenuItem :=
  (appListApps env models exclude).map (mkGroupItem env)

/-- `AppList.init_with_context(context)`: appends the freshly built
per-application items to the existing `self.children`. -/
def AppList.initWithContext (env : Env) (s : AppListState) : AppListState :=
  { s with children := s.children ++ appListNewChildren env s.models s.exclude }

/-- `AppList.is_empty`: `len(self.children) == 0`. -/
def AppList.isEmpty (s : AppListState) : Bool :=
  s.children.length == 0

/-! ### `ModelList.init_with_context` -/

/-- The direct child `MenuItem(title=verbose_name_plural, url=changeUrl)`
built for one visible model (also the shape of an `AppList` grandchild). -/
def modelItem (env : Env) (m : Model) : MenuItem :=
  MenuItem.mk m.verboseNamePlural (env.changeUrl m) none []

/-- The children one call of `ModelList.init_with_context` appends: one
item per visible model with change-or-view permission, in the order
returned by `_visible_models`. -/
def modelListNewChildren (env : Env) (models exclude : List String) : List MenuItem :=
  (visibleModels env models exclude).foldl
    (fun acc mp => if mp.2.change || mp.2.view then acc ++ [modelItem env mp.1] else acc)
    []

/-- `ModelList.init_with_context(context)`. -/
def ModelList.initWithContext (env : Env) (s : ModelListState) : ModelListState :=
  { s with children := s.children ++ modelListNewChildren env s.models s.exclude }

/-- `ModelList.is_empty`: `len(self.children) == 0`. -/
def ModelList.isEmpty (s : ModelListState) : Bool :=
  s.children.length == 0

/-! ### The UOM seed command (`initial_uom.py`) -/

/-- One entry of `Command.uom_data["CREATIVE"]`: the dict with a `code`, a
`name`, and an optional `base_uom` key. -/
structure UOMEntry where
  code : String
  name : String
  base_uom : Option String
deriving DecidableEq, Repr

/-- A persisted UOM row, restricted to the fields the seed command and the
claims touch: `code`, `name` and the optional `base_uom` self-reference
(stored here as the referenced row's unique code). -/
structure UOMRec where
  code : String
  name : String
  base_uom : Option String
deriving DecidableEq, Repr

/-- The UOM table as a list of rows. -/
abbrev UOMDb := List UOMRec

/-- Modelled from the spec: Django's
`UOM.objects.update_or_create(code=..., name=...)` with no `defaults` —
both keyword arguments are lookup parameters.  If exactly one row matches
both `code` and `name`, it is fetched and saved with no field changed; if
none matches, a fresh row is created with those fields; per the spec,
`UOM.code` is unique, so creating a row whose code already exists raises
an integrity error; more than one match raises `MultipleObjectsReturned`. -/
def updateOrCreate (db : UOMDb) (c n : String) : Except Unit UOMDb :=
  match db.filter (fun r => r.code == c && r.name == n) with
  | [_] => Except.ok db
  | [] =>
    if db.any (fun r => r.code == c) then Except.error ()
    else Except.ok (db ++ [{ code := c, name := n, base_uom := none }])
  | _ => Except.error ()

/-- Modelled from the spec: `UOM.objects.get(code=c)` — succeeds iff
exactly one row has code `c`, and raises (`DoesNotExist` or
`MultipleObjectsReturned`) otherwise. -/
def getByCode (db : UOMDb) (c : String) : Except Unit UOMRec :=
  match db.filter (fun r => r.code == c) with
  | [r] => Except.ok r
  | _ => Except.error ()

/-- Modelled from the spec: `uom_obj.base_uom = base; uom_obj.save()` —
persist the fetched row (identified by its unique code) with its
`base_uom` reference set to `b`. -/
def saveBase (db : UOMDb) (c : String) (b : Option String) : UOMDb :=
  db.map (fun r => if r.code == c then { r with base_uom := b } else r)

/-- The first loop of `Command.handle`:
`for uom in uom_data: UOM.objects.update_or_create(code=..., name=...)`.
An ORM exception aborts the command. -/
def passOne : List UOMEntry → UOMDb → Except Unit UOMDb
  | [], db => Except.ok db
  | e :: es, db =>
    match updateOrCreate db e.code e.name with
    | Except.error u => Except.error u
    | Except.ok db₂ => passOne es db₂

/-- The second loop of `Command.handle`: fetch each entry's row by code,
and when the entry declares a truthy `base_uom` (a nonempty string), fetch
the base row by that code and save the row with the reference set. -/
def passTwo : List UOMEntry → UOMDb → Except Unit UOMDb
  | [], db => Except.ok db
  | e :: es, db =>
    match getByCode db e.code with
    | Except.error u => Except.error u
    | Except.ok _ =>
      match e.base_uom with
      | none => passTwo es db
      | some b =>
        if b.isEmpty then passTwo es db
        else
          match getByCode db b with
          | Except.error u => Except.error u
          | Except.ok rb => passTwo es (saveBase db e.code (some rb.code))

/-- `Command.handle` run on a given entry list: pass one, then pass two. -/
def runSeed (entries : List UOMEntry) (db : UOMDb) : Except Unit UOMDb :=
  match passOne entries db with
  | Except.error u => Except.error u
  | Except.ok db₂ => passTwo entries db₂

/-- `Command.uom_data["CREATIVE"]`, with exactly the uncommented entries
of the source. -/
def creativeUOMData : List UOMEntry :=
  [ { code := "UOM_PIECE", name := "Sản phẩm", base_uom := none },
    { code := "UOM_SECTION", name := "Buổi", base_uom := none },
    { code := "UOM_WORD", name := "Chữ", base_uom := none },
    { code := "UOM_POST_LOWER_300", name := "Bài dưới 300 chữ", base_uom := some "UOM_WORD" },
    { code := "UOM_POST_301_500", name := "Bài 301 - 500 chữ", base_uom := some "UOM_WORD" },
    { code := "UOM_POST_501_700", name := "Bài 501 - 700 chữ", base_uom := some "UOM_WORD" },
    { code := "UOM_POST_701_900", name := "Bài 701 - 900 chữ", base_uom := some "UOM_WORD" },
    { code := "UOM_POST_901_1000", name := "Bài 901 - 1000 chữ", base_uom := some "UOM_WORD" },
    { code := "UOM_POST_1001_3000", name := "Bài 1001 - 3000 chữ", base_uom := some "UOM_WORD" },
    { code := "UOM_POST_UPPER_3000", name := "Bài trên 3000 chữ", base_uom := some "UOM_WORD" },
    { code := "UOM_SECOND", name := "Giây", base_uom := none },
    { code := "UOM_SCRIPT_30_45", name := "Kịch bản 30-45s", base_uom := some "UOM_SECOND" },
    { code := "UOM_SCRIPT_60", name := "Kịch bản 60s", base_uom := some "UOM_SECOND" },
    { code := "UOM_SCRIPT_120", name := "Kịch bản 120s", base_uom := some "UOM_SECOND" },
    { code := "UOM_SCRIPT_180", name := "Kịch bản 180s", base_uom := some "UOM_SECOND" } ]

/-- `Command.handle` with `business_type="CREATIVE"`:
`uom_data[business_type.upper()]` selects the `CREATIVE` list. -/
def handleCreative (db : UOMDb) : Except Unit UOMDb :=
  runSeed creativeUOMData db

/-- The `choices` constraint of `Command.add_arguments`. -/
def businessTypeChoices : List String :=
  ["CREATIVE"]

/-- Modelled from the spec: the command-line parser enforces the
enumerated-choice constraint on the positional `business_type` argument
before `Command.handle` runs, so an invalid value is rejected with no
database access; a valid one runs `handle`, which selects
`uom_data[business_type.upper()]`. -/
def runCommand (businessType : String) (db : UOMDb) : Except Unit UOMDb :=
  if businessTypeChoices.contains businessType then runSeed creativeUOMData db
  else Except.error ()

/-! ### Lemmas about menu construction -/

theorem selectedChildren_length_pos (cur : String) (cs : List MenuItem) :
    0 < (MenuItem.selectedChildren cur cs).length
      ↔ ∃ c ∈ cs, MenuItem.isSelected cur c = true := by
  induction cs with
  | nil => simp [MenuItem.selectedChildren]
  | cons c cs ih =>
    by_cases h : MenuItem.isSelected cur c = true
    · simp [MenuItem.selectedChildren, h]
    · simp only [MenuItem.selectedChildren, h, if_false, Bool.false_eq_true, if_neg]
      rw [ih]
      simp only [List.mem_cons]
      constructor
      · rintro ⟨x, hx, hsel⟩
        exact ⟨x, Or.inr hx, hsel⟩
      · rintro ⟨x, hx | hx, hsel⟩
        · exact absurd (hx ▸ hsel) h
        · exact ⟨x, hx, hsel⟩

/-- Claim C6: `is_selected` returns true exactly when the item's own url
equals the current request path or some child is (recursively) selected. -/
theorem menuItem_isSelected_iff (cur : String) (it : MenuItem) :
    MenuItem.isSelected cur it = true
      ↔ (it.url = cur ∨ ∃ c ∈ it.children, MenuItem.isSelected cur c = true) := by
  cases it with
  | mk t u i cs =>
    show (u == cur || decide (0 < (MenuItem.selectedChildren cur cs).length)) = true ↔ _
    rw [Bool.or_eq_true, beq_iff_eq, decide_eq_true_iff, selectedChildren_length_pos]
    rfl

/-- Claim C7: `is_empty` is constantly false on plain `MenuItem`s, while on
`AppList` and `ModelList` it is true exactly when the child list is empty;
in particular it is true on an empty child list, false once one child is
present, and true again once the children are cleared. -/
theorem isEmpty_spec :
    (∀ it : MenuItem, MenuItem.isEmpty it = false)
    ∧ (∀ s : AppListState, AppList.isEmpty s = true ↔ s.children = [])
    ∧ (∀ s : ModelListState, ModelList.isEmpty s = true ↔ s.children = [])
    ∧ (∀ (ms ex : List String) (c : MenuItem),
        AppList.isEmpty ⟨ms, ex, []⟩ = true
        ∧ AppList.isEmpty ⟨ms, ex, [c]⟩ = false
        ∧ ModelList.isEmpty ⟨ms, ex, []⟩ = true
        ∧ ModelList.isEmpty ⟨ms, ex, [c]⟩ = false) := by
  refine ⟨fun _ => rfl, fun s => ?_, fun s => ?_, fun ms ex c => ?_⟩
  · simp [AppList.isEmpty, List.length_eq_zero]
  · simp [ModelList.isEmpty, List.length_eq_zero]
  · exact ⟨rfl, rfl, rfl, rfl⟩

/-- Claim C10: `init_with_context` appends to the existing child list
without clearing it, so two successive calls on a fresh instance leave the
children equal to two copies of a single call's children. -/
theorem initWithContext_appends :
    (∀ (env : Env) (s : AppListState),
        (AppList.initWithContext env s).children
          = s.children ++ appListNewChildren env s.models s.exclude)
    ∧ (∀ (env : Env) (s : ModelListState),
        (ModelList.initWithContext env s).children
          = s.children ++ modelListNewChildren env s.models s.exclude)
    ∧ (∀ (env : Env) (ms ex : List String),
        (AppList.initWithContext env (AppList.initWithContext env ⟨ms, ex, []⟩)).children
          = (AppList.initWithContext env ⟨ms, ex, []⟩).children
            ++ (AppList.initWithContext env ⟨ms, ex, []⟩).children)
    ∧ (∀ (env : Env) (ms ex : List String),
        (ModelList.initWithContext env (ModelList.initWithContext env ⟨ms, ex, []⟩)).children
          = (ModelList.initWithContext env ⟨ms, ex, []⟩).children
            ++ (ModelList.initWithContext env ⟨ms, ex, []⟩).children) := by
  refine ⟨fun env s => rfl, fun env s => rfl, fun env ms ex => ?_, fun env ms ex => ?_⟩
  · simp [AppList.initWithContext]
  · simp [ModelList.initWithContext]

theorem foldl_append_filter {α β : Type _} (p : α → Bool) (f : α → β)
    (l : List α) (acc : List β) :
    l.foldl (fun acc x => if p x then acc ++ [f x] else acc) acc
      = acc ++ (l.filter p).map f := by
  induction l generalizing acc with
  | nil => simp
  | cons x l ih =>
    by_cases h : p x
    · simp [h, ih]
    · simp [h, ih]

/-- Claim C8: `ModelList.init_with_context` applies the same
change-or-view permission filter as `AppList`, with no grouping and no
sort: its new children are exactly one item per model of the visibility
query that passes the permission test, in query order. -/
theorem modelList_children_spec (env : Env) (ms ex : List String) :
    modelListNewChildren env ms ex
      = ((env.registry.filter (fun m =>
            patternVisible ms ex m.dottedName
              && ((env.perms m).change || (env.perms m).view))).map (modelItem env)) := by
  unfold modelListNewChildren visibleModels
  rw [foldl_append_filter, List.nil_append, List.filter_map, List.map_map]
  rw [List.filter_filter]
  have hpred : (fun (a : Model) =>
        ((fun (mp : Model × Perms) => mp.2.change || mp.2.view) ∘ fun m => (m, env.perms m)) a
          && patternVisible ms ex a.dottedName)
      = (fun m => patternVisible ms ex m.dottedName
          && ((env.perms m).change || (env.perms m).view)) := by
    funext a
    simp [Function.comp, Bool.and_comm]
  rw [hpred]
  rfl

/-- Claim C2: after `AppList.init_with_context`, the per-application items
come in ascending `app_label` order, and inside each application item the
model items come in ascending order of plural display name (their titles). -/
theorem appList_sorted_spec (env : Env) (ms ex : List String) :
    ((appListApps env ms ex).map AppDict.app_label).Sorted (· ≤ ·)
    ∧ appListNewChildren env ms ex = (appListApps env ms ex).map (mkGroupItem env)
    ∧ ∀ g ∈ appListNewChildren env ms ex,
        (g.children.map MenuItem.title).Sorted (· ≤ ·) := by
  refine ⟨?_, rfl, ?_⟩
  · rw [List.Sorted, List.pairwise_map]
    exact List.sorted_insertionSort appDictLe _
  · intro g hg
    obtain ⟨a, _, rfl⟩ := List.mem_map.1 hg
    show ((((sortModels a.models).map
        (fun md => MenuItem.mk md.title md.url none [])).map MenuItem.title)).Sorted (· ≤ ·)
    rw [List.map_map, List.Sorted, List.pairwise_map]
    exact List.sorted_insertionSort modelDictLe a.models

/-! #### Membership in the `AppList` output -/

/-- All model dicts accumulated across the app dicts (the grandchildren
of the output, before sorting). -/
def allModels : List AppDict → List ModelDict
  | [] => []
  | a :: rest => a.models ++ allModels rest

theorem mem_allModels {md : ModelDict} {apps : List AppDict} :
    md ∈ allModels apps ↔ ∃ a ∈ apps, md ∈ a.models := by
  induction apps with
  | nil => simp [allModels]
  | cons a rest ih => simp [allModels, ih]

theorem mem_allModels_append {md : ModelDict} {l₁ l₂ : List AppDict} :
    md ∈ allModels (l₁ ++ l₂) ↔ md ∈ allModels l₁ ∨ md ∈ allModels l₂ := by
  simp [mem_allModels]
  constructor
  · rintro ⟨a, ha | ha, hmd⟩
    · exact Or.inl ⟨a, ha, hmd⟩
    · exact Or.inr ⟨a, ha, hmd⟩
  · rintro (⟨a, ha, hmd⟩ | ⟨a, ha, hmd⟩)
    · exact ⟨a, Or.inl ha, hmd⟩
    · exact ⟨a, Or.inr ha, hmd⟩

theorem mem_allModels_bump (env : Env) (m : Model) (md : ModelDict)
    (apps : List AppDict) :
    md ∈ allModels (apps.map (fun a =>
        if a.app_label == m.appLabel
        then { a with models := a.models ++ [modelDict env m] } else a))
      ↔ md ∈ allModels apps
        ∨ (md = modelDict env m
            ∧ apps.any (fun a => a.app_label == m.appLabel) = true) := by
  induction apps with
  | nil => simp [allModels]
  | cons a rest ih =>
    by_cases h : (a.app_label == m.appLabel) = true <;>
      simp [allModels, h, List.any_cons] at ih ⊢ <;> aesop

theorem mem_allModels_addModel (env : Env) (m : Model) (md : ModelDict)
    (apps : List AppDict) :
    md ∈ allModels (addModel env apps m)
      ↔ md ∈ allModels apps ∨ md = modelDict env m := by
  unfold addModel
  by_cases h : (apps.any (fun a => a.app_label == m.appLabel)) = true
  · rw [if_pos h, mem_allModels_bump]
    simp [h]
  · rw [if_neg h, mem_allModels_bump, mem_allModels_append]
    simp only [List.any_append]
    simp [allModels, h]

theorem mem_allModels_buildApps_aux (env : Env) (md : ModelDict)
    (items : List (Model × Perms)) (apps : List AppDict) :
    md ∈ allModels (items.foldl
        (fun apps mp => if mp.2.change || mp.2.view then addModel env apps mp.1 else apps)
        apps)
      ↔ md ∈ allModels apps
        ∨ ∃ mp ∈ items, (mp.2.change || mp.2.view) = true ∧ md = modelDict env mp.1 := by
  induction items generalizing apps with
  | nil => simp
  | cons mp rest ih =>
    rw [List.foldl_cons, ih]
    by_cases h : (mp.2.change || mp.2.view) = true
    · rw [if_pos h, mem_allModels_addModel]
      simp only [List.mem_cons]
      constructor
      · rintro ((hmd | hmd) | ⟨mp', hmp', hperm, hmd⟩)
        · exact Or.inl hmd
        · exact Or.inr ⟨mp, Or.inl rfl, h, hmd⟩
        · exact Or.inr ⟨mp', Or.inr hmp', hperm, hmd⟩
      · rintro (hmd | ⟨mp', hmp' | hmp', hperm, hmd⟩)
        · exact Or.inl (Or.inl hmd)
        · exact Or.inl (Or.inr (hmp' ▸ hmd))
        · exact Or.inr ⟨mp', hmp', hperm, hmd⟩
    · rw [if_neg h]
      simp only [List.mem_cons]
      constructor
      · rintro (hmd | ⟨mp', hmp', hperm, hmd⟩)
        · exact Or.inl hmd
        · exact Or.inr ⟨mp', Or.inr hmp', hperm, hmd⟩
      · rintro (hmd | ⟨mp', hmp' | hmp', hperm, hmd⟩)
        · exact Or.inl hmd
        · exact absurd (hmp' ▸ hperm) h
        · exact Or.inr ⟨mp', hmp', hperm, hmd⟩

theorem mem_allModels_buildApps (env : Env) (md : ModelDict)
    (items : List (Model × Perms)) :
    md ∈ allModels (buildApps env items)
      ↔ ∃ mp ∈ items, (mp.2.change || mp.2.view) = true ∧ md = modelDict env mp.1 := by
  rw [buildApps, mem_allModels_buildApps_aux]
  simp [allModels]

theorem patternVisible_iff (ms ex : List String) (d : String) :
    patternVisible ms ex d = true
      ↔ ((ms = [] ∨ ∃ p ∈ ms, globMatchStr p d = true)
          ∧ ∀ p ∈ ex, globMatchStr p d = false) := by
  simp only [patternVisible, Bool.and_eq_true, Bool.or_eq_true, Bool.not_eq_true',
    List.any_eq_true, List.any_eq_false, List.isEmpty_iff]
  constructor
  · rintro ⟨h₁ | h₁, h₂⟩
    · exact ⟨Or.inl h₁, fun p hp => by simpa using h₂ p hp⟩
    · obtain ⟨p, hp, hm⟩ := h₁
      exact ⟨Or.inr ⟨p, hp, hm⟩, fun p hp => by simpa using h₂ p hp⟩
  · rintro ⟨h₁ | h₁, h₂⟩
    · exact ⟨Or.inl h₁, fun p hp => by simp [h₂ p hp]⟩
    · exact ⟨Or.inr h₁, fun p hp => by simp [h₂ p hp]⟩

/-- Claim C1: a registered model `M` appears as a grandchild item of the
`AppList` output iff the principal holds change-or-view permission on it,
its dotted name passes the inclusion patterns (an empty inclusion list
admitting everything), and it matches no exclusion pattern.  The admin
change-URL builder is assumed to give distinct models distinct URLs, so a
grandchild item identifies its model. -/
theorem appList_model_visibility (env : Env) (ms ex : List String) (M : Model)
    (hM : M ∈ env.registry)
    (hinj : ∀ m₁ ∈ env.registry, ∀ m₂ ∈ env.registry,
        env.changeUrl m₁ = env.changeUrl m₂ → m₁ = m₂) :
    (∃ g ∈ appListNewChildren env ms ex, modelItem env M ∈ g.children)
      ↔ (((env.perms M).change || (env.perms M).view) = true
          ∧ (ms = [] ∨ ∃ p ∈ ms, globMatchStr p M.dottedName = true)
          ∧ ∀ p ∈ ex, globMatchStr p M.dottedName = false) := by
  have hstep : (∃ g ∈ appListNewChildren env ms ex, modelItem env M ∈ g.children)
      ↔ ∃ md ∈ allModels (buildApps env (visibleModels env ms ex)),
          MenuItem.mk md.title md.url none [] = modelItem env M := by
    constructor
    · rintro ⟨g, hg, hmem⟩
      obtain ⟨a, ha, rfl⟩ := List.mem_map.1 hg
      have ha' : a ∈ buildApps env (visibleModels env ms ex) :=
        (List.mem_insertionSort appDictLe).1 ha
      have hmem' : modelItem env M ∈ (sortModels a.models).map
          (fun md => MenuItem.mk md.title md.url none []) := hmem
      obtain ⟨md, hmd, heq⟩ := List.mem_map.1 hmem'
      exact ⟨md, mem_allModels.2 ⟨a, ha', (List.mem_insertionSort modelDictLe).1 hmd⟩, heq⟩
    · rintro ⟨md, hmd, heq⟩
      obtain ⟨a, ha, hmda⟩ := mem_allModels.1 hmd
      refine ⟨mkGroupItem env a, List.mem_map_of_mem (mkGroupItem env) ?_, ?_⟩
      · exact (List.mem_insertionSort appDictLe).2 ha
      · show modelItem env M ∈ (sortModels a.models).map
            (fun md => MenuItem.mk md.title md.url none [])
        exact List.mem_map.2 ⟨md, (List.mem_insertionSort modelDictLe).2 hmda, heq⟩
  rw [hstep]
  constructor
  · rintro ⟨md, hmd, heq⟩
    obtain ⟨mp, hmp, hperm, rfl⟩ := (mem_allModels_buildApps env md _).1 hmd
    obtain ⟨m, hm, rfl⟩ := List.mem_map.1 hmp
    have hm' : m ∈ env.registry ∧ patternVisible ms ex m.dottedName = true := by
      simpa using List.mem_filter.1 hm
    have heq' : m.verboseNamePlural = M.verboseNamePlural
        ∧ env.changeUrl m = env.changeUrl M := by
      have := heq
      simp only [modelDict, modelItem, MenuItem.mk.injEq] at this
      exact ⟨this.1, this.2.1⟩
    have hmM : m = M := hinj m hm'.1 M hM heq'.2
    subst hmM
    obtain ⟨hpat₁, hpat₂⟩ := (patternVisible_iff ms ex m.dottedName).1 hm'.2
    exact ⟨hperm, hpat₁, hpat₂⟩
  · rintro ⟨hperm, hpat₁, hpat₂⟩
    refine ⟨modelDict env M, ?_, rfl⟩
    rw [mem_allModels_buildApps]
    refine ⟨(M, env.perms M), ?_, hperm, rfl⟩
    unfold visibleModels
    refine List.mem_map.2 ⟨M, List.mem_filter.2 ⟨hM, ?_⟩, rfl⟩
    exact (patternVisible_iff ms ex M.dottedName).2 ⟨hpat₁, hpat₂⟩

/-! ### Lemmas about the seed command -/

/-- The database invariant maintained by the unique constraint on
`UOM.code`: no two rows share a code. -/
theorem code_unique {db : UOMDb}
    (hnd : (db.map (fun r => r.code)).Nodup)
    {r r' : UOMRec} (hr : r ∈ db) (hr' : r' ∈ db) (hcode : r.code = r'.code) :
    r = r' :=
  List.inj_on_of_nodup_map hnd hr hr' hcode

theorem filter_code_singleton {db : UOMDb} {c : String}
    (hnd : (db.map (fun r => r.code)).Nodup)
    (hc : c ∈ db.map (fun r => r.code)) :
    ∃ r, db.filter (fun r => r.code == c) = [r] ∧ r.code = c ∧ r ∈ db := by
  induction db with
  | nil => simp at hc
  | cons r rest ih =>
    simp only [List.map_cons, List.nodup_cons] at hnd
    by_cases hr : r.code = c
    · refine ⟨r, ?_, hr, List.mem_cons_self r rest⟩
      rw [List.filter_cons, if_pos (by simp [hr])]
      have : rest.filter (fun r => r.code == c) = [] := by
        rw [List.filter_eq_nil_iff]
        intro a ha
        simp only [beq_iff_eq]
        intro hac
        exact hnd.1 (List.mem_map.2 ⟨a, ha, by rw [hac, hr]⟩)
      rw [this]
    · have hc' : c ∈ rest.map (fun r => r.code) := by
        rcases List.mem_cons.1 hc with h | h
        · exact absurd h.symm hr
        · exact h
      obtain ⟨r', hfil, hcode, hmem⟩ := ih hnd.2 hc'
      refine ⟨r', ?_, hcode, List.mem_cons_of_mem r hmem⟩
      rw [List.filter_cons, if_neg (by simp [hr])]
      exact hfil

theorem getByCode_ok {db : UOMDb} {c : String}
    (hnd : (db.map (fun r => r.code)).Nodup)
    (hc : c ∈ db.map (fun r => r.code)) :
    ∃ r, getByCode db c = Except.ok r ∧ r.code = c ∧ r ∈ db := by
  obtain ⟨r, hfil, hcode, hmem⟩ := filter_code_singleton hnd hc
  refine ⟨r, ?_, hcode, hmem⟩
  unfold getByCode
  rw [hfil]

theorem getByCode_ok_inv {db : UOMDb} {c : String} {r : UOMRec}
    (h : getByCode db c = Except.ok r) : r ∈ db ∧ r.code = c := by
  unfold getByCode at h
  split at h
  · rename_i x hfil
    injection h with h'
    have hx : x ∈ db.filter (fun r => r.code == c) := by
      rw [hfil]
      exact List.mem_cons_self x []
    have hx' := List.mem_filter.1 hx
    rw [← h']
    exact ⟨hx'.1, by simpa using hx'.2⟩
  · exact Except.noConfusion h

theorem updateOrCreate_ok_inv {db db₂ : UOMDb} {c n : String}
    (h : updateOrCreate db c n = Except.ok db₂) :
    (db₂ = db ∧ ∃ r ∈ db, r.code = c ∧ r.name = n)
    ∨ (db₂ = db ++ [{ code := c, name := n, base_uom := none }]
        ∧ db.any (fun r => r.code == c) = false) := by
  unfold updateOrCreate at h
  split at h
  · rename_i x hfil
    injection h with h'
    have hx : x ∈ db.filter (fun r => r.code == c && r.name == n) := by
      rw [hfil]
      exact List.mem_cons_self x []
    have hx' := List.mem_filter.1 hx
    have hcn : x.code = c ∧ x.name = n := by
      have := hx'.2
      simp only [Bool.and_eq_true, beq_iff_eq] at this
      exact this
    exact Or.inl ⟨h'.symm, x, hx'.1, hcn.1, hcn.2⟩
  · rename_i hfil
    split at h
    · exact Except.noConfusion h
    · rename_i hany
      injection h with h'
      exact Or.inr ⟨h'.symm, by simpa using hany⟩
  · exact Except.noConfusion h

/-- No seed entry disagrees with a pre-existing row's name at its code. -/
def NamesAgree (es : List UOMEntry) (db : UOMDb) : Prop :=
  ∀ e ∈ es, ∀ r ∈ db, r.code = e.code → r.name = e.name

/-- The rows pass one creates: one per entry whose code is not yet in the
table, in entry order. -/
def newRecords (es : List UOMEntry) (db : UOMDb) : UOMDb :=
  (es.filter (fun e => !(db.any (fun r => r.code == e.code)))).map
    (fun e => { code := e.code, name := e.name, base_uom := none })

theorem passOne_eq : ∀ (es : List UOMEntry) (db : UOMDb),
    (es.map (fun e => e.code)).Nodup →
    (db.map (fun r => r.code)).Nodup →
    NamesAgree es db →
    passOne es db = Except.ok (db ++ newRecords es db) := by
  intro es
  induction es with
  | nil =>
    intro db _ _ _
    simp [passOne, newRecords]
  | cons e es ih =>
    intro db hes hdb hagree
    simp only [List.map_cons, List.nodup_cons] at hes
    by_cases hc : e.code ∈ db.map (fun r => r.code)
    · have hfe : db.filter (fun r => r.code == e.code && r.name == e.name)
          = db.filter (fun r => r.code == e.code) := by
        apply List.filter_congr
        intro r hr
        by_cases hrc : r.code = e.code
        · have hname := hagree e (List.mem_cons_self e es) r hr hrc
          simp [hrc, hname]
        · simp [hrc]
      obtain ⟨r, hfil, _, _⟩ := filter_code_singleton hdb hc
      have hup : updateOrCreate db e.code e.name = Except.ok db := by
        unfold updateOrCreate
        rw [hfe, hfil]
      have hany : db.any (fun r => r.code == e.code) = true := by
        rw [List.any_eq_true]
        obtain ⟨r₀, hr₀, hr₀c⟩ := List.mem_map.1 hc
        exact ⟨r₀, hr₀, by simp [hr₀c]⟩
      have hnew : newRecords (e :: es) db = newRecords es db := by
        unfold newRecords
        rw [List.filter_cons, if_neg (by simp [hany])]
      simp only [passOne, hup]
      rw [hnew]
      exact ih db hes.2 hdb (fun e' he' => hagree e' (List.mem_cons_of_mem e he'))
    · have hany : db.any (fun r => r.code == e.code) = false := by
        rw [List.any_eq_false]
        intro r hr
        simp only [beq_iff_eq]
        intro hrc
        exact hc (List.mem_map.2 ⟨r, hr, hrc⟩)
      have hfe : db.filter (fun r => r.code == e.code && r.name == e.name) = [] := by
        rw [List.filter_eq_nil_iff]
        intro r hr
        simp only [Bool.and_eq_true, beq_iff_eq, not_and]
        intro hrc
        exact absurd (List.mem_map.2 ⟨r, hr, hrc⟩) hc
      have hup : updateOrCreate db e.code e.name
          = Except.ok (db ++ [{ code := e.code, name := e.name, base_uom := none }]) := by
        unfold updateOrCreate
        rw [hfe, hany]
        rfl
      have hdb₂ : (((db ++ [({ code := e.code, name := e.name, base_uom := none } : UOMRec)]).map
          (fun r => r.code))).Nodup := by
        rw [List.map_append, List.nodup_append]
        refine ⟨hdb, by simp, ?_⟩
        intro a ha hb
        simp only [List.map_cons, List.map_nil, List.mem_singleton] at hb
        subst hb
        exact hc ha
      have hagree₂ : NamesAgree es
          (db ++ [{ code := e.code, name := e.name, base_uom := none }]) := by
        intro e' he' r hr hrcode
        rcases List.mem_append.1 hr with hr | hr
        · exact hagree e' (List.mem_cons_of_mem e he') r hr hrcode
        · simp only [List.mem_singleton] at hr
          subst hr
          exact absurd (List.mem_map.2 ⟨e', he', hrcode.symm⟩) hes.1
      have hnewcons : newRecords (e :: es) db
          = { code := e.code, name := e.name, base_uom := none } :: newRecords es db := by
        unfold newRecords
        rw [List.filter_cons, if_pos (by simp [hany])]
        rfl
      have hnewtail : newRecords es
          (db ++ [{ code := e.code, name := e.name, base_uom := none }])
          = newRecords es db := by
        unfold newRecords
        congr 1
        apply List.filter_congr
        intro e' he'
        have hne : ((({ code := e.code, name := e.name, base_uom := none } : UOMRec).code
            == e'.code)) = false := by
          simp only [beq_eq_false_iff_ne, ne_eq]
          intro h'
          exact hes.1 (List.mem_map.2 ⟨e', he', h'.symm⟩)
        simp [List.any_append, hne]
      simp only [passOne, hup]
      rw [ih _ hes.2 hdb₂ hagree₂, hnewtail, hnewcons]
      simp

theorem passOne_inv : ∀ (es : List UOMEntry) (db db₁ : UOMDb),
    (db.map (fun r => r.code)).Nodup →
    passOne es db = Except.ok db₁ →
    ((db₁.map (fun r => r.code)).Nodup
      ∧ (∃ ext, db₁ = db ++ ext)
      ∧ ∀ e ∈ es, ∃ r ∈ db₁, r.code = e.code ∧ r.name = e.name) := by
  intro es
  induction es with
  | nil =>
    intro db db₁ hdb h
    simp only [passOne] at h
    injection h with h'
    subst h'
    exact ⟨hdb, ⟨[], by simp⟩, by simp⟩
  | cons e es ih =>
    intro db db₁ hdb h
    simp only [passOne] at h
    split at h
    · exact Except.noConfusion h
    · rename_i db₂ hup
      rcases updateOrCreate_ok_inv hup with ⟨rfl, r, hr, hrc, hrn⟩ | ⟨rfl, hany⟩
      · obtain ⟨hnd₁, ⟨ext, hext⟩, hall⟩ := ih _ db₁ hdb h
        refine ⟨hnd₁, ⟨ext, hext⟩, ?_⟩
        intro e' he'
        rcases List.mem_cons.1 he' with rfl | he'
        · exact ⟨r, by rw [hext]; exact List.mem_append_left ext hr, hrc, hrn⟩
        · exact hall e' he'
      · have hdb₂ : (((db ++ [({ code := e.code, name := e.name, base_uom := none } : UOMRec)]).map
            (fun r => r.code))).Nodup := by
          rw [List.map_append, List.nodup_append]
          refine ⟨hdb, by simp, ?_⟩
          intro a ha hb
          simp only [List.map_cons, List.map_nil, List.mem_singleton] at hb
          subst hb
          rw [List.any_eq_false] at hany
          obtain ⟨r₀, hr₀, hr₀c⟩ := List.mem_map.1 ha
          exact hany r₀ hr₀ (by simp [hr₀c])
        obtain ⟨hnd₁, ⟨ext, hext⟩, hall⟩ := ih _ db₁ hdb₂ h
        refine ⟨hnd₁, ⟨[{ code := e.code, name := e.name, base_uom := none }] ++ ext,
          by rw [hext, List.append_assoc]⟩, ?_⟩
        intro e' he'
        rcases List.mem_cons.1 he' with rfl | he'
        · refine ⟨{ code := e'.code, name := e'.name, base_uom := none }, ?_, rfl, rfl⟩
          rw [hext]
          exact List.mem_append_left ext (List.mem_append_right db (by simp))
        · exact hall e' he'

/-! #### Pass two as a pure base-assignment fold -/

/-- The effect of one pass-two iteration on the table, given that the
fetches succeed: entries without a truthy `base_uom` change nothing, the
others save their row with the reference set. -/
def applyEntry (db : UOMDb) (e : UOMEntry) : UOMDb :=
  match e.base_uom with
  | none => db
  | some b => if b.isEmpty then db else saveBase db e.code (some b)

def applyAll (es : List UOMEntry) (db : UOMDb) : UOMDb :=
  es.foldl applyEntry db

theorem saveBase_map_code (db : UOMDb) (c : String) (b : Option String) :
    (saveBase db c b).map (fun r => r.code) = db.map (fun r => r.code) := by
  unfold saveBase
  rw [List.map_map]
  apply List.map_congr_left
  intro r _
  simp only [Function.comp]
  split <;> rfl

theorem saveBase_map_pair (db : UOMDb) (c : String) (b : Option String) :
    (saveBase db c b).map (fun r => (r.code, r.name))
      = db.map (fun r => (r.code, r.name)) := by
  unfold saveBase
  rw [List.map_map]
  apply List.map_congr_left
  intro r _
  simp only [Function.comp]
  split <;> rfl

theorem filter_code_saveBase (db : UOMDb) (c : String) (b : Option String) (c' : String) :
    (saveBase db c b).filter (fun r => r.code == c')
      = (db.filter (fun r => r.code == c')).map
          (fun r => if r.code == c then { r with base_uom := b } else r) := by
  unfold saveBase
  rw [List.filter_map]
  congr 1
  apply List.filter_congr
  intro r _
  simp only [Function.comp]
  split <;> rfl

theorem getByCode_saveBase_ne {c c' : String} (h : c' ≠ c) (db : UOMDb) (b : Option String) :
    getByCode (saveBase db c b) c' = getByCode db c' := by
  unfold getByCode
  rw [filter_code_saveBase]
  have hmap : (db.filter (fun r => r.code == c')).map
      (fun r => if r.code == c then { r with base_uom := b } else r)
      = db.filter (fun r => r.code == c') := by
    have hid : (db.filter (fun r => r.code == c')).map
        (fun r => if r.code == c then { r with base_uom := b } else r)
        = (db.filter (fun r => r.code == c')).map id := by
      apply List.map_congr_left
      intro r hr
      have hrc : r.code = c' := by simpa using (List.mem_filter.1 hr).2
      show (if (r.code == c) = true then { r with base_uom := b } else r) = id r
      rw [if_neg (by simp [hrc, h])]
      rfl
    rw [hid, List.map_id]
  rw [hmap]

theorem getByCode_saveBase_eq {db : UOMDb} {c : String} {r : UOMRec}
    (h : getByCode db c = Except.ok r) (b : Option String) :
    getByCode (saveBase db c b) c = Except.ok { r with base_uom := b } := by
  have hrc : r.code = c := (getByCode_ok_inv h).2
  have hfil : db.filter (fun r => r.code == c) = [r] := by
    unfold getByCode at h
    split at h
    · rename_i x hfil
      injection h with h'
      rw [← h']
      exact hfil
    · exact Except.noConfusion h
  unfold getByCode
  rw [filter_code_saveBase, hfil]
  simp [hrc]

theorem applyEntry_map_code (db : UOMDb) (e : UOMEntry) :
    (applyEntry db e).map (fun r => r.code) = db.map (fun r => r.code) := by
  unfold applyEntry
  split
  · rfl
  · split
    · rfl
    · exact saveBase_map_code db _ _

theorem applyAll_map_code (es : List UOMEntry) (db : UOMDb) :
    (applyAll es db).map (fun r => r.code) = db.map (fun r => r.code) := by
  induction es generalizing db with
  | nil => rfl
  | cons e es ih =>
    show ((applyAll es (applyEntry db e)).map (fun r => r.code)) = _
    rw [ih, applyEntry_map_code]

theorem passTwo_eq : ∀ (es : List UOMEntry) (db : UOMDb),
    (db.map (fun r => r.code)).Nodup →
    (∀ e ∈ es, e.code ∈ db.map (fun r => r.code)) →
    (∀ e ∈ es, ∀ b, e.base_uom = some b → b.isEmpty = false →
        b ∈ db.map (fun r => r.code)) →
    passTwo es db = Except.ok (applyAll es db) := by
  intro es
  induction es with
  | nil =>
    intro db _ _ _
    rfl
  | cons e es ih =>
    intro db hdb hcodes hbases
    obtain ⟨r, hget, hrcode, hrmem⟩ := getByCode_ok hdb (hcodes e (List.mem_cons_self e es))
    have htail : ∀ e' ∈ es, e'.code ∈ db.map (fun r => r.code) :=
      fun e' he' => hcodes e' (List.mem_cons_of_mem e he')
    have hbtail : ∀ e' ∈ es, ∀ b, e'.base_uom = some b → b.isEmpty = false →
        b ∈ db.map (fun r => r.code) :=
      fun e' he' => hbases e' (List.mem_cons_of_mem e he')
    cases hb : e.base_uom with
    | none =>
      have happ : applyAll (e :: es) db = applyAll es db := by
        show applyAll es (applyEntry db e) = applyAll es db
        rw [show applyEntry db e = db from by simp [applyEntry, hb]]
      rw [show passTwo (e :: es) db = passTwo es db from by
        simp [passTwo, hget, hb]]
      rw [happ]
      exact ih db hdb htail hbtail
    | some b =>
      cases hbe : b.isEmpty with
      | true =>
        have happ : applyAll (e :: es) db = applyAll es db := by
          show applyAll es (applyEntry db e) = applyAll es db
          rw [show applyEntry db e = db from by simp [applyEntry, hb, hbe]]
        rw [show passTwo (e :: es) db = passTwo es db from by
          simp [passTwo, hget, hb, hbe]]
        rw [happ]
        exact ih db hdb htail hbtail
      | false =>
        have hbc : b ∈ db.map (fun r => r.code) :=
          hbases e (List.mem_cons_self e es) b hb hbe
        obtain ⟨rb, hgetb, hrbcode, _⟩ := getByCode_ok hdb hbc
        have happ : applyAll (e :: es) db
            = applyAll es (saveBase db e.code (some b)) := by
          show applyAll es (applyEntry db e) = _
          rw [show applyEntry db e = saveBase db e.code (some b) from by
            simp [applyEntry, hb, hbe]]
        rw [show passTwo (e :: es) db
            = passTwo es (saveBase db e.code (some rb.code)) from by
          simp [passTwo, hget, hb, hbe, hgetb]]
        rw [hrbcode, happ]
        have hdb' : ((saveBase db e.code (some b)).map (fun r => r.code)).Nodup := by
          rw [saveBase_map_code]
          exact hdb
        refine ih (saveBase db e.code (some b)) hdb' ?_ ?_
        · intro e' he'
          rw [saveBase_map_code]
          exact htail e' he'
        · intro e' he' b' hb' hbe'
          rw [saveBase_map_code]
          exact hbtail e' he' b' hb' hbe'

theorem passTwo_inv : ∀ (es : List UOMEntry) (db db₂ : UOMDb),
    passTwo es db = Except.ok db₂ →
    db₂.map (fun r => (r.code, r.name)) = db.map (fun r => (r.code, r.name)) := by
  intro es
  induction es with
  | nil =>
    intro db db₂ h
    injection h with h'
    rw [h']
  | cons e es ih =>
    intro db db₂ h
    simp only [passTwo] at h
    split at h
    · exact Except.noConfusion h
    · split at h
      · exact ih db db₂ h
      · split at h
        · exact ih db db₂ h
        · split at h
          · exact Except.noConfusion h
          · rename_i rb hgetb
            rw [ih _ db₂ h, saveBase_map_pair]

/-! #### Idempotence of the base-assignment fold -/

theorem saveBase_saveBase_self (db : UOMDb) (c : String) (b : Option String) :
    saveBase (saveBase db c b) c b = saveBase db c b := by
  unfold saveBase
  rw [List.map_map]
  apply List.map_congr_left
  intro r _
  simp only [Function.comp]
  by_cases h : (r.code == c) = true
  · simp [h]
  · simp [h]

theorem saveBase_comm {c c' : String} (h : c ≠ c') (db : UOMDb)
    (b b' : Option String) :
    saveBase (saveBase db c b) c' b' = saveBase (saveBase db c' b') c b := by
  unfold saveBase
  rw [List.map_map, List.map_map]
  apply List.map_congr_left
  intro r _
  simp only [Function.comp]
  by_cases h1 : (r.code == c) = true
  · have h2 : (r.code == c') = false := by
      rw [beq_eq_false_iff_ne]
      rw [beq_iff_eq] at h1
      rw [h1]
      exact h
    simp [h1, h2]
  · by_cases h2 : (r.code == c') = true
    · simp [h1, h2]
    · simp [h1, h2]

theorem applyEntry_self (db : UOMDb) (e : UOMEntry) :
    applyEntry (applyEntry db e) e = applyEntry db e := by
  cases hb : e.base_uom with
  | none => simp [applyEntry, hb]
  | some b =>
    cases hbe : b.isEmpty with
    | true => simp [applyEntry, hb, hbe]
    | false => simp [applyEntry, hb, hbe, saveBase_saveBase_self]

theorem applyEntry_comm {e e' : UOMEntry} (h : e.code ≠ e'.code) (db : UOMDb) :
    applyEntry (applyEntry db e) e' = applyEntry (applyEntry db e') e := by
  cases hb : e.base_uom with
  | none => simp [applyEntry, hb]
  | some b =>
    cases hbe : b.isEmpty with
    | true => simp [applyEntry, hb, hbe]
    | false =>
      cases hb' : e'.base_uom with
      | none => simp [applyEntry, hb, hbe, hb']
      | some b' =>
        cases hbe' : b'.isEmpty with
        | true => simp [applyEntry, hb, hbe, hb', hbe']
        | false => simp [applyEntry, hb, hbe, hb', hbe', saveBase_comm h]

theorem applyAll_applyEntry_comm : ∀ (es : List UOMEntry) (e : UOMEntry),
    (∀ e' ∈ es, e.code ≠ e'.code) → ∀ db : UOMDb,
    applyAll es (applyEntry db e) = applyEntry (applyAll es db) e := by
  intro es
  induction es with
  | nil =>
    intro e _ db
    rfl
  | cons e' es ih =>
    intro e h db
    show applyAll es (applyEntry (applyEntry db e) e')
        = applyEntry (applyAll es (applyEntry db e')) e
    rw [applyEntry_comm (h e' (List.mem_cons_self e' es)) db]
    exact ih e (fun e'' he'' => h e'' (List.mem_cons_of_mem e' he'')) (applyEntry db e')

theorem applyAll_idem : ∀ (es : List UOMEntry),
    (es.map (fun e => e.code)).Nodup → ∀ db : UOMDb,
    applyAll es (applyAll es db) = applyAll es db := by
  intro es
  induction es with
  | nil =>
    intro _ db
    rfl
  | cons e es ih =>
    intro hes db
    simp only [List.map_cons, List.nodup_cons] at hes
    have hne : ∀ e' ∈ es, e.code ≠ e'.code := fun e' he' hcontra =>
      hes.1 (List.mem_map.2 ⟨e', he', hcontra.symm⟩)
    show applyAll es (applyEntry (applyAll es (applyEntry db e)) e)
        = applyAll es (applyEntry db e)
    rw [← applyAll_applyEntry_comm es e hne (applyEntry db e), applyEntry_self]
    exact ih hes.2 (applyEntry db e)

theorem getByCode_applyEntry_ne {e : UOMEntry} {c : String}
    (h : e.code ≠ c) (db : UOMDb) :
    getByCode (applyEntry db e) c = getByCode db c := by
  cases hb : e.base_uom with
  | none => simp [applyEntry, hb]
  | some b =>
    cases hbe : b.isEmpty with
    | true => simp [applyEntry, hb, hbe]
    | false =>
      rw [show applyEntry db e = saveBase db e.code (some b) from by
        simp [applyEntry, hb, hbe]]
      exact getByCode_saveBase_ne (Ne.symm h) db (some b)

theorem getByCode_applyAll_untouched : ∀ (es : List UOMEntry) (c : String),
    (∀ e ∈ es, e.code ≠ c) → ∀ db : UOMDb,
    getByCode (applyAll es db) c = getByCode db c := by
  intro es
  induction es with
  | nil =>
    intro c _ db
    rfl
  | cons e es ih =>
    intro c h db
    show getByCode (applyAll es (applyEntry db e)) c = getByCode db c
    rw [ih c (fun e' he' => h e' (List.mem_cons_of_mem e he')) (applyEntry db e)]
    exact getByCode_applyEntry_ne (h e (List.mem_cons_self e es)) db

theorem getByCode_applyAll_base : ∀ (es : List UOMEntry) (db : UOMDb),
    (es.map (fun e => e.code)).Nodup →
    (db.map (fun r => r.code)).Nodup →
    ∀ e ∈ es, ∀ b : String, e.base_uom = some b → b.isEmpty = false →
    e.code ∈ db.map (fun r => r.code) →
    ∃ r, getByCode (applyAll es db) e.code = Except.ok r ∧ r.base_uom = some b := by
  intro es
  induction es with
  | nil =>
    intro db _ _ e he
    exact absurd he (List.not_mem_nil e)
  | cons e' es ih =>
    intro db hes hdb e he b hb hbe hc
    simp only [List.map_cons, List.nodup_cons] at hes
    rcases List.mem_cons.1 he with heq | he'
    · subst heq
      have hne : ∀ e₂ ∈ es, e₂.code ≠ e.code := fun e₂ h₂ hcontra =>
        hes.1 (List.mem_map.2 ⟨e₂, h₂, hcontra⟩)
      show ∃ r, getByCode (applyAll es (applyEntry db e)) e.code = Except.ok r
          ∧ r.base_uom = some b
      rw [getByCode_applyAll_untouched es e.code hne (applyEntry db e)]
      obtain ⟨r, hget, _, _⟩ := getByCode_ok hdb hc
      rw [show applyEntry db e = saveBase db e.code (some b) from by
        simp [applyEntry, hb, hbe]]
      exact ⟨{ r with base_uom := some b }, getByCode_saveBase_eq hget (some b), rfl⟩
    · show ∃ r, getByCode (applyAll es (applyEntry db e')) e.code = Except.ok r
          ∧ r.base_uom = some b
      refine ih (applyEntry db e') hes.2 ?_ e he' b hb hbe ?_
      · rw [applyEntry_map_code]
        exact hdb
      · rw [applyEntry_map_code]
        exact hc

/-! #### The claim theorems about the seed command -/

theorem runSeed_eq_of {es : List UOMEntry} {db db₁ : UOMDb}
    (h : passOne es db = Except.ok db₁) :
    runSeed es db = passTwo es db₁ := by
  unfold runSeed
  rw [h]

/-- The concrete well-formedness of the seed data that the proofs use:
every declared base code is nonempty and is itself a code of the list. -/
def basesOk (es : List UOMEntry) : Bool :=
  es.all (fun e =>
    match e.base_uom with
    | none => true
    | some b => !b.isEmpty && (es.map (fun e => e.code)).contains b)

theorem of_basesOk {es : List UOMEntry} (h : basesOk es = true) :
    ∀ e ∈ es, ∀ b, e.base_uom = some b →
      b.isEmpty = false ∧ b ∈ es.map (fun e => e.code) := by
  intro e he b hb
  rw [basesOk, List.all_eq_true] at h
  have he' := h e he
  rw [hb] at he'
  simp only [Bool.and_eq_true, Bool.not_eq_true'] at he'
  refine ⟨he'.1, ?_⟩
  have hc := he'.2
  rw [List.contains_eq_any_beq, List.any_eq_true] at hc
  obtain ⟨x, hx, hbx⟩ := hc
  rw [beq_iff_eq] at hbx
  rw [hbx]
  exact hx

/-- Claim C3 (amended scope: the table satisfies the code-uniqueness
constraint): if a run of the seed command with `business_type=CREATIVE`
succeeds and produces table state `db'`, then a second run succeeds and
leaves `db'` exactly as it is — same rows, same count, same `code`,
`name` and `base_uom` values. -/
theorem handleCreative_idempotent (db db' : UOMDb)
    (hdb : (db.map (fun r => r.code)).Nodup)
    (h : handleCreative db = Except.ok db') :
    handleCreative db' = Except.ok db' := by
  have hesnd : (creativeUOMData.map (fun e => e.code)).Nodup := by decide
  have hbase₀ := of_basesOk (show basesOk creativeUOMData = true by decide)
  unfold handleCreative runSeed at h
  split at h
  · exact Except.noConfusion h
  · rename_i db₁ hp1
    obtain ⟨hnd₁, ⟨ext, hext⟩, hall⟩ := passOne_inv creativeUOMData db db₁ hdb hp1
    have hcodes₁ : ∀ e ∈ creativeUOMData, e.code ∈ db₁.map (fun r => r.code) :=
      fun e he => by
        obtain ⟨r, hr, hrc, _⟩ := hall e he
        exact List.mem_map.2 ⟨r, hr, hrc⟩
    have hbases₁ : ∀ e ∈ creativeUOMData, ∀ b, e.base_uom = some b →
        b.isEmpty = false → b ∈ db₁.map (fun r => r.code) := fun e he b hb _ => by
      obtain ⟨_, hbc⟩ := hbase₀ e he b hb
      obtain ⟨e', he', hec⟩ := List.mem_map.1 hbc
      rw [← hec]
      exact hcodes₁ e' he'
    have hpairs := passTwo_inv creativeUOMData db₁ db' h
    have hp2eq := passTwo_eq creativeUOMData db₁ hnd₁ hcodes₁ hbases₁
    have hdb'1 : db' = applyAll creativeUOMData db₁ := by
      rw [hp2eq] at h
      injection h with h'
      exact h'.symm
    have hcodes' : db'.map (fun r => r.code) = db₁.map (fun r => r.code) := by
      have hfst := congrArg (List.map Prod.fst) hpairs
      simpa [List.map_map, Function.comp] using hfst
    have hnd' : (db'.map (fun r => r.code)).Nodup := by
      rw [hcodes']
      exact hnd₁
    have hall' : ∀ e ∈ creativeUOMData, ∃ r ∈ db', r.code = e.code ∧ r.name = e.name :=
      fun e he => by
        obtain ⟨r, hr, hrc, hrn⟩ := hall e he
        have hmem : (e.code, e.name) ∈ db'.map (fun r => (r.code, r.name)) := by
          rw [hpairs]
          exact List.mem_map.2 ⟨r, hr, by rw [hrc, hrn]⟩
        obtain ⟨r', hr', hpair⟩ := List.mem_map.1 hmem
        have hpair' : r'.code = e.code ∧ r'.name = e.name := by
          have := hpair
          rw [Prod.ext_iff] at this
          exact this
        exact ⟨r', hr', hpair'.1, hpair'.2⟩
    have hagree' : NamesAgree creativeUOMData db' := by
      intro e he r hr hrc
      obtain ⟨r₀, hr₀, hr₀c, hr₀n⟩ := hall' e he
      have : r = r₀ := code_unique hnd' hr hr₀ (by rw [hrc, hr₀c])
      rw [this, hr₀n]
    have hpass1' : passOne creativeUOMData db' = Except.ok db' := by
      rw [passOne_eq creativeUOMData db' hesnd hnd' hagree']
      have hnil : newRecords creativeUOMData db' = [] := by
        unfold newRecords
        have : creativeUOMData.filter
            (fun e => !(db'.any (fun r => r.code == e.code))) = [] := by
          rw [List.filter_eq_nil_iff]
          intro e he
          have hany : db'.any (fun r => r.code == e.code) = true := by
            rw [List.any_eq_true]
            obtain ⟨r, hr, hrc, _⟩ := hall' e he
            exact ⟨r, hr, by simp [hrc]⟩
          simp [hany]
        rw [this]
        rfl
      rw [hnil]
      rw [List.append_nil]
    have hcodes₂ : ∀ e ∈ creativeUOMData, e.code ∈ db'.map (fun r => r.code) :=
      fun e he => by
        rw [hcodes']
        exact hcodes₁ e he
    have hbases₂ : ∀ e ∈ creativeUOMData, ∀ b, e.base_uom = some b →
        b.isEmpty = false → b ∈ db'.map (fun r => r.code) := fun e he b hb hbe => by
      rw [hcodes']
      exact hbases₁ e he b hb hbe
    have hpass2' := passTwo_eq creativeUOMData db' hnd' hcodes₂ hbases₂
    have hfix : applyAll creativeUOMData db' = db' := by
      calc applyAll creativeUOMData db'
          = applyAll creativeUOMData (applyAll creativeUOMData db₁) := by rw [← hdb'1]
        _ = applyAll creativeUOMData db₁ := applyAll_idem creativeUOMData hesnd db₁
        _ = db' := hdb'1.symm
    unfold handleCreative
    rw [runSeed_eq_of hpass1', hpass2', hfix]

/-- The row each seed entry creates when its code is new. -/
def freshRecord (e : UOMEntry) : UOMRec :=
  { code := e.code, name := e.name, base_uom := none }

/-- Claim C4, amended: pass one upserts keyed by the pair `(code, name)`,
not by `code` alone.  On a pre-existing state (with distinct codes) in
which every seed code is either absent or already stored under the seed
name, pass one succeeds and leaves exactly one row per seed code bearing
the seed name; but a pre-existing row whose code matches a seed entry
under a different name is never updated — the command instead fails with
a uniqueness violation (see the counterexample theorem). -/
theorem passOne_upsert_on_compatible_states (db : UOMDb)
    (hdb : (db.map (fun r => r.code)).Nodup)
    (hagree : NamesAgree creativeUOMData db) :
    ∃ db₁, passOne creativeUOMData db = Except.ok db₁
      ∧ ∀ e ∈ creativeUOMData,
          ∃ r, db₁.filter (fun r => r.code == e.code) = [r] ∧ r.name = e.name := by
  have hesnd : (creativeUOMData.map (fun e => e.code)).Nodup := by decide
  have hp := passOne_eq creativeUOMData db hesnd hdb hagree
  obtain ⟨hnd₁, _, hall⟩ := passOne_inv creativeUOMData db _ hdb hp
  refine ⟨db ++ newRecords creativeUOMData db, hp, ?_⟩
  intro e he
  obtain ⟨r, hr, hrc, hrn⟩ := hall e he
  obtain ⟨r', hfil, hr'c, hr'mem⟩ :=
    filter_code_singleton hnd₁ (List.mem_map.2 ⟨r, hr, hrc⟩)
  refine ⟨r', hfil, ?_⟩
  have : r' = r := code_unique hnd₁ hr'mem hr (by rw [hr'c, hrc])
  rw [this, hrn]

/-- Claim C4, counterexample: on a pre-existing table holding the code
`UOM_PIECE` under a different name, pass one raises instead of updating
the name — `update_or_create(code=..., name=...)` looks rows up by both
fields and then attempts a create that violates code uniqueness. -/
theorem passOne_name_conflict_error :
    passOne creativeUOMData
        [{ code := "UOM_PIECE", name := "Legacy piece", base_uom := none }]
      = Except.error ()
    ∧ ¬ ∃ db₁, passOne creativeUOMData
        [{ code := "UOM_PIECE", name := "Legacy piece", base_uom := none }]
      = Except.ok db₁ := by
  have h0 : passOne creativeUOMData
      [{ code := "UOM_PIECE", name := "Legacy piece", base_uom := none }]
      = Except.error () := by rfl
  refine ⟨h0, ?_⟩
  rintro ⟨db₁, h⟩
  rw [h0] at h
  exact Except.noConfusion h

/-- Claim C5: whatever the order of the seed entries, running the command
on an empty table succeeds, and afterwards every entry that declares a
`base_uom` code has its row's base reference set to that code, which is
borne by exactly the row fetched under it. -/
theorem seed_base_resolution_any_order (es : List UOMEntry)
    (hperm : es.Perm creativeUOMData) :
    ∃ db', runSeed es [] = Except.ok db'
      ∧ ∀ e ∈ es, ∀ b, e.base_uom = some b →
          (∃ r, getByCode db' e.code = Except.ok r ∧ r.base_uom = some b)
          ∧ ∃ rb, getByCode db' b = Except.ok rb ∧ rb.code = b := by
  have hesnd : (es.map (fun e => e.code)).Nodup := by
    have hmp : (es.map (fun e => e.code)).Perm
        (creativeUOMData.map (fun e => e.code)) := hperm.map _
    exact hmp.nodup_iff.2 (by decide)
  have hbase₀ := of_basesOk (show basesOk creativeUOMData = true by decide)
  have hbase : ∀ e ∈ es, ∀ b, e.base_uom = some b →
      b.isEmpty = false ∧ b ∈ es.map (fun e => e.code) := by
    intro e he b hb
    obtain ⟨h1, h2⟩ := hbase₀ e (hperm.subset he) b hb
    exact ⟨h1, ((hperm.map (fun e => e.code)).mem_iff).2 h2⟩
  have hagree0 : NamesAgree es [] := fun e _ r hr => absurd hr (List.not_mem_nil r)
  have hp1 : passOne es [] = Except.ok (es.map freshRecord) := by
    have hstep := passOne_eq es [] hesnd (by simp) hagree0
    have hnew : newRecords es [] = es.map freshRecord := by
      unfold newRecords
      have hfil : es.filter
          (fun e => !(([] : UOMDb).any (fun r => r.code == e.code))) = es :=
        List.filter_eq_self.2 (fun a _ => rfl)
      rw [hfil]
      rfl
    rw [hstep, hnew]
    rfl
  have hnd₁ : ((es.map freshRecord).map (fun r => r.code)).Nodup := by
    rw [List.map_map]
    exact hesnd
  have hcodes₁ : ∀ e ∈ es, e.code ∈ (es.map freshRecord).map (fun r => r.code) := by
    intro e he
    rw [List.map_map]
    exact List.mem_map.2 ⟨e, he, rfl⟩
  have hbases₁ : ∀ e ∈ es, ∀ b, e.base_uom = some b → b.isEmpty = false →
      b ∈ (es.map freshRecord).map (fun r => r.code) := by
    intro e he b hb _
    obtain ⟨_, hbmem⟩ := hbase e he b hb
    rw [List.map_map]
    obtain ⟨e', he', he'c⟩ := List.mem_map.1 hbmem
    exact List.mem_map.2 ⟨e', he', he'c⟩
  have hp2 := passTwo_eq es (es.map freshRecord) hnd₁ hcodes₁ hbases₁
  refine ⟨applyAll es (es.map freshRecord), ?_, ?_⟩
  · rw [runSeed_eq_of hp1]
    exact hp2
  · intro e he b hb
    obtain ⟨hbne, _⟩ := hbase e he b hb
    constructor
    · exact getByCode_applyAll_base es (es.map freshRecord) hesnd hnd₁ e he b hb hbne
        (hcodes₁ e he)
    · have hbc : b ∈ (applyAll es (es.map freshRecord)).map (fun r => r.code) := by
        rw [applyAll_map_code]
        exact hbases₁ e he b hb hbne
      have hnd₂ : ((applyAll es (es.map freshRecord)).map (fun r => r.code)).Nodup := by
        rw [applyAll_map_code]
        exact hnd₁
      obtain ⟨rb, hget, hrbc, _⟩ := getByCode_ok hnd₂ hbc
      exact ⟨rb, hget, hrbc⟩

/-- Claim C9: a `business_type` outside the enumerated choices is rejected
by the parser before `handle` runs, so the run fails with no table access. -/
theorem invalid_businessType_rejected (businessType : String) (db : UOMDb)
    (h : businessType ∉ businessTypeChoices) :
    runCommand businessType db = Except.error () := by
  unfold runCommand
  rw [if_neg]
  intro hc
  rw [List.contains_eq_any_beq, List.any_eq_true] at hc
  obtain ⟨x, hx, hbx⟩ := hc
  rw [beq_iff_eq] at hbx
  exact h (by rw [hbx]; exact hx)

/-! ### Witnesses at concrete inputs -/

/-- A one-model environment used to instantiate the `AppList` theorem. -/
def envW : Env :=
  { registry := [{ appLabel := "blog", modelName := "Post", verboseNamePlural := "posts" }],
    perms := fun _ => { change := true, view := false },
    appVerboseName := fun l => l,
    appListUrl := fun _ => "/admin/blog/",
    changeUrl := fun m => "/admin/" ++ m.appLabel ++ "/" ++ m.modelName ++ "/",
    extraTitle := fun _ => none,
    extraIcon := fun _ => none }

theorem appList_model_visibility_witness :
    (({ appLabel := "blog", modelName := "Post", verboseNamePlural := "posts" } : Model)
        ∈ envW.registry
      ∧ ∀ m₁ ∈ envW.registry, ∀ m₂ ∈ envW.registry,
          envW.changeUrl m₁ = envW.changeUrl m₂ → m₁ = m₂)
    ∧ ((∃ g ∈ appListNewChildren envW [] [],
          modelItem envW
            { appLabel := "blog", modelName := "Post", verboseNamePlural := "posts" }
            ∈ g.children)
        ↔ (((envW.perms
              { appLabel := "blog", modelName := "Post", verboseNamePlural := "posts" }).change
              || (envW.perms
                { appLabel := "blog", modelName := "Post", verboseNamePlural := "posts" }).view)
               = true
            ∧ (([] : List String) = []
                ∨ ∃ p ∈ ([] : List String),
                    globMatchStr p (Model.dottedName
                      { appLabel := "blog", modelName := "Post",
                        verboseNamePlural := "posts" }) = true)
            ∧ ∀ p ∈ ([] : List String),
                globMatchStr p (Model.dottedName
                  { appLabel := "blog", modelName := "Post",
                    verboseNamePlural := "posts" }) = false)) :=
  ⟨⟨by decide, by decide⟩,
    appList_model_visibility envW [] [] _ (by decide) (by decide)⟩

/-- The table state a successful run from an empty table produces. -/
def resolvedCreative : UOMDb :=
  creativeUOMData.map
    (fun e => { code := e.code, name := e.name, base_uom := e.base_uom })

theorem handleCreative_idempotent_witness :
    ((([] : UOMDb).map (fun r => r.code)).Nodup
      ∧ handleCreative [] = Except.ok resolvedCreative)
    ∧ handleCreative resolvedCreative = Except.ok resolvedCreative :=
  ⟨⟨by simp, by rfl⟩,
    handleCreative_idempotent [] resolvedCreative (by simp) (by rfl)⟩

theorem passOne_upsert_witness :
    ((([] : UOMDb).map (fun r => r.code)).Nodup ∧ NamesAgree creativeUOMData [])
    ∧ ∃ db₁, passOne creativeUOMData [] = Except.ok db₁
        ∧ ∀ e ∈ creativeUOMData,
            ∃ r, db₁.filter (fun r => r.code == e.code) = [r] ∧ r.name = e.name :=
  ⟨⟨by simp, fun e _ r hr => absurd hr (List.not_mem_nil r)⟩,
    passOne_upsert_on_compatible_states [] (by simp)
      (fun e _ r hr => absurd hr (List.not_mem_nil r))⟩

theorem seed_base_resolution_any_order_witness :
    creativeUOMData.Perm creativeUOMData
    ∧ ∃ db', runSeed creativeUOMData [] = Except.ok db'
        ∧ ∀ e ∈ creativeUOMData, ∀ b, e.base_uom = some b →
            (∃ r, getByCode db' e.code = Except.ok r ∧ r.base_uom = some b)
            ∧ ∃ rb, getByCode db' b = Except.ok rb ∧ rb.code = b :=
  ⟨List.Perm.refl _,
    seed_base_resolution_any_order creativeUOMData (List.Perm.refl _)⟩

theorem invalid_businessType_rejected_witness :
    "FINANCE" ∉ businessTypeChoices
    ∧ runCommand "FINANCE" [] = Except.error () :=
  ⟨by decide, invalid_businessType_rejected "FINANCE" [] (by decide)⟩

end One
